import Mathlib

/-!
Verification of the chord-recognition pipeline in `src/main.rs`.

The pipeline (function `find_chord`) is embedded shallowly:
* pure arithmetic on `f32` is modelled by exact arithmetic in a linear
  ordered field (instantiated at `ℚ` for decidable evaluation and at `ℝ`
  for the transcendental parts: `log2`, `cos`, the DFT);
* Rust's `%` on `i32` is truncated remainder, i.e. `Int.tmod`;
* Rust's stable `sort_by` is modelled by `List.insertionSort`, which is
  stable (any two stable ascending sorts with the same comparator agree
  extensionally);
* the literal `0.4` is modelled by the rational `2/5`.
-/

namespace Chord

/-- Model of `NOTE_NAMES` from main.rs (lines 7-10), as a function from
the array index to the stored name. -/
def NOTE_NAMES : Fin 12 → String
  | 0 => "C"
  | 1 => "C#"
  | 2 => "D"
  | 3 => "D#"
  | 4 => "E"
  | 5 => "F"
  | 6 => "F#"
  | 7 => "G"
  | 8 => "G#"
  | 9 => "A"
  | 10 => "A#"
  | 11 => "B"

variable {α : Type} [LinearOrderedField α]

/-- Model of `MAJOR_TEMPLATE` from main.rs (lines 14-15): 1.0 at offsets 0, 4, 7. -/
def MAJOR_TEMPLATE : Fin 12 → α := ![1, 0, 0, 0, 1, 0, 0, 1, 0, 0, 0, 0]

/-- Model of `MINOR_TEMPLATE` from main.rs (lines 18-19): 1.0 at offsets 0, 3, 7. -/
def MINOR_TEMPLATE : Fin 12 → α := ![1, 0, 0, 1, 0, 0, 0, 1, 0, 0, 0, 0]

/-- Model of `roll_template` from main.rs (lines 46-54): the loop assigns
`out[(i + shift) % 12] = template[i]` for each `i`, which as a function of
the output index `j` is `template[(j - shift) mod 12]`. -/
def roll_template (template : Fin 12 → α) (shift : Fin 12) : Fin 12 → α :=
  fun j => template (j - shift)

/-- Model of `dot` from main.rs (lines 56-64). -/
def dot (a b : Fin 12 → α) : α := ∑ i, a i * b i

/-- Score of the hypothesis `(root, isMajor)` against a chroma vector, as
computed in the matching loop of `find_chord` (lines 134-139). -/
def score (chroma : Fin 12 → α) (h : Fin 12 × Bool) : α :=
  dot chroma (roll_template (if h.2 then MAJOR_TEMPLATE else MINOR_TEMPLATE) h.1)

/-- The label `format!("{} major", ...)` / `format!("{} minor", ...)` built
for the hypothesis `(root, isMajor)` (lines 143, 148). -/
def chordLabel (h : Fin 12 × Bool) : String :=
  NOTE_NAMES h.1 ++ (if h.2 then " major" else " minor")

/-- One `if score > best_score { update }` step (lines 141-149). -/
def upd (chroma : Fin 12 → α) (st : α × String) (h : Fin 12 × Bool) : α × String :=
  if score chroma h > st.1 then (score chroma h, chordLabel h) else st

/-- The body of the per-root loop (lines 134-150): the major hypothesis is
tested first, then the minor hypothesis. -/
def chordStep (chroma : Fin 12 → α) (st : α × String) (root : Fin 12) : α × String :=
  upd chroma (upd chroma st (root, true)) (root, false)

/-- The 24 `(root, quality)` hypotheses in the order the loop evaluates
them: roots ascending, major before minor at each root. -/
def hyps : List (Fin 12 × Bool) :=
  (List.finRange 12).flatMap (fun r => [(r, true), (r, false)])

/-- The chord-matching loop of `find_chord` (lines 131-150), starting from
`best_score = 0.0`, `best_chord = "Unknown"`. -/
def matchChord (chroma : Fin 12 → α) : α × String :=
  (List.finRange 12).foldl (chordStep chroma) (0, "Unknown")

/-- The final threshold test of `find_chord` (lines 152-156):
`if best_score < 0.4 { "Unknown" } else { best_chord }`. -/
def classify (chroma : Fin 12 → α) : String :=
  if (matchChord chroma).1 < 2 / 5 then "Unknown" else (matchChord chroma).2

/-- The diagnostic "strongest 3 pitch classes" computation (lines 120-123):
stable ascending sort of the indices `0..12` by energy, reversed, first 3. -/
def top_notes (c : Fin 12 → α) : List (Fin 12) :=
  (((List.finRange 12).insertionSort (fun a b => c a ≤ c b)).reverse).take 3

/-- Model of `freq_to_pitch` from main.rs (lines 22-35).  Rust's `%` on `i32` is
truncated remainder (`Int.tmod`); `f32::round` is modelled by `round`. -/
noncomputable def freq_to_pitch (freq : ℝ) : ℕ :=
  let midi : ℝ := 69 + 12 * Real.logb 2 (freq / 440)
  let note_number : ℤ := round midi
  let pitch_class : ℤ := Int.tmod note_number 12
  (if pitch_class < 0 then pitch_class + 12 else pitch_class).toNat

/-- Model of `hann_window` from main.rs (lines 37-43). -/
noncomputable def hann_window (n : ℕ) : List ℝ :=
  (List.range n).map (fun i => 0.5 - 0.5 * Real.cos (2 * Real.pi * i / n))

/-- The forward FFT of rustfft (no normalization):
`X[k] = Σ_j x[j]·exp(-2πi·jk/n)` (lines 91-93). -/
noncomputable def dft (x : List ℂ) : List ℂ :=
  (List.range x.length).map (fun k =>
    ∑ j ∈ Finset.range x.length,
      x.getD j 0 * Complex.exp (-2 * Real.pi * Complex.I * k * j / x.length))

/-- One iteration of the pitch-class energy loop (lines 98-109) on the
enumerated pair `kc = (k, c)`: skip out-of-band bins, otherwise add the
magnitude `c.norm()` at index `freq_to_pitch freq`.  The `else acc` branch
of the inner bounds test is unreachable (see `freq_to_pitch_lt_twelve`);
in Rust an out-of-bounds index would panic there. -/
noncomputable def aggStep (sr n : ℕ) (acc : Fin 12 → ℝ) (kc : ℕ × ℂ) : Fin 12 → ℝ :=
  if (kc.1 : ℝ) * sr / n < 70 ∨ (kc.1 : ℝ) * sr / n > 1500 then acc
  else if h : freq_to_pitch ((kc.1 : ℝ) * sr / n) < 12 then
    Function.update acc ⟨freq_to_pitch ((kc.1 : ℝ) * sr / n), h⟩
      (acc ⟨freq_to_pitch ((kc.1 : ℝ) * sr / n), h⟩ + Complex.abs kc.2)
  else acc

/-- The pitch-class energy vector built from the spectrum (lines 96-109):
fold of `aggStep` over the first `n/2` enumerated bins. -/
noncomputable def pitchEnergyRaw (sr : ℕ) (spectrum : List ℂ) : Fin 12 → ℝ :=
  (spectrum.enum.take (spectrum.length / 2)).foldl
    (aggStep sr spectrum.length) (fun _ => 0)

/-- The normalization step (lines 112-118): divide by the maximum iff the
maximum is strictly positive. -/
noncomputable def normalize (c : Fin 12 → ℝ) : Fin 12 → ℝ :=
  let max_val := Finset.univ.sup' Finset.univ_nonempty c
  if max_val > 0 then fun i => c i / max_val else c

/-- Concrete test vectors used in counterexamples and witnesses below:
`cEx1` holds its entire energy, 0.4, in pitch class 0; `cT` makes C major
and C minor tie at score 3; `c8w` is uniform (all pitch classes tie);
`hypsTail` lists the 23 hypotheses evaluated after `(0, major)`. -/
def cEx1 : Fin 12 → ℚ := fun i => if i = 0 then 2 / 5 else 0

/-- A chroma vector on which C major and C minor tie with score 3. -/
def cT : Fin 12 → ℚ := fun i => if i = 0 ∨ i = 3 ∨ i = 4 ∨ i = 7 then 1 else 0

/-- A uniform chroma vector: every pair of pitch classes is tied. -/
def c8w : Fin 12 → ℚ := fun _ => 1

/-- The 23 hypotheses evaluated after `(0, major)`. -/
def hypsTail : List (Fin 12 × Bool) :=
  [(0, false), (1, true), (1, false), (2, true), (2, false), (3, true),
   (3, false), (4, true), (4, false), (5, true), (5, false), (6, true),
   (6, false), (7, true), (7, false), (8, true), (8, false), (9, true),
   (9, false), (10, true), (10, false), (11, true), (11, false)]

/-- The part of `find_chord` downstream of the FFT: spectrum to label. -/
noncomputable def chordFromSpectrum (sr : ℕ) (spectrum : List ℂ) : String :=
  classify (normalize (pitchEnergyRaw sr spectrum))

/-- Model of `find_chord` from main.rs (lines 66-157), taking the decoded samples
and sample rate directly (decoding the WAV file is external I/O). -/
noncomputable def find_chord (sr : ℕ) (samples : List ℝ) : String :=
  if samples.length = 0 then "Unknown"
  else
    let window := hann_window samples.length
    let input : List ℂ := (samples.zip window).map (fun p => ((p.1 * p.2 : ℝ) : ℂ))
    let spectrum := dft input
    chordFromSpectrum sr spectrum

/-! ### Lemmas about the matching loop -/

theorem foldl_upd_of_le (chroma : Fin 12 → α) :
    ∀ (l : List (Fin 12 × Bool)) (st : α × String),
      (∀ h ∈ l, score chroma h ≤ st.1) → l.foldl (upd chroma) st = st := by
  intro l
  induction l with
  | nil => intro st _; rfl
  | cons h l ih =>
    intro st hle
    have h1 : upd chroma st h = st := by
      unfold upd
      rw [if_neg]
      exact not_lt.mpr (hle h (List.mem_cons_self h l))
    rw [List.foldl_cons, h1]
    exact ih st (fun h' hh' => hle h' (List.mem_cons_of_mem h hh'))

theorem foldl_upd_first_max (chroma : Fin 12 → α) (h : Fin 12 × Bool)
    (l₂ : List (Fin 12 × Bool))
    (hl₂ : ∀ h' ∈ l₂, score chroma h' ≤ score chroma h) :
    ∀ (l₁ : List (Fin 12 × Bool)) (st : α × String),
      st.1 < score chroma h →
      (∀ h' ∈ l₁, score chroma h' < score chroma h) →
      (l₁ ++ h :: l₂).foldl (upd chroma) st = (score chroma h, chordLabel h) := by
  intro l₁
  induction l₁ with
  | nil =>
    intro st hst _
    rw [List.nil_append, List.foldl_cons]
    have h1 : upd chroma st h = (score chroma h, chordLabel h) := by
      unfold upd; rw [if_pos hst]
    rw [h1]
    exact foldl_upd_of_le chroma l₂ _ hl₂
  | cons a l₁ ih =>
    intro st hst hlt
    rw [List.cons_append, List.foldl_cons]
    have ha : (upd chroma st a).1 < score chroma h := by
      unfold upd
      split
      · exact hlt a (List.mem_cons_self a l₁)
      · exact hst
    exact ih _ ha (fun h' hh' => hlt h' (List.mem_cons_of_mem a hh'))

theorem foldl_chordStep_eq (chroma : Fin 12 → α) :
    ∀ (l : List (Fin 12)) (st : α × String),
      l.foldl (chordStep chroma) st =
        (l.flatMap (fun r => [(r, true), (r, false)])).foldl (upd chroma) st := by
  intro l
  induction l with
  | nil => intro st; rfl
  | cons r l ih =>
    intro st
    rw [List.foldl_cons, List.flatMap_cons, List.foldl_append]
    exact ih _

theorem matchChord_eq_foldl_hyps (chroma : Fin 12 → α) :
    matchChord chroma = hyps.foldl (upd chroma) (0, "Unknown") :=
  foldl_chordStep_eq chroma (List.finRange 12) (0, "Unknown")

theorem chordLabel_ne_unknown : ∀ h : Fin 12 × Bool, chordLabel h ≠ "Unknown" := by
  decide

theorem foldl_upd_pos_ne_unknown (chroma : Fin 12 → α) :
    ∀ (l : List (Fin 12 × Bool)) (st : α × String),
      (0 < st.1 → st.2 ≠ "Unknown") →
      (0 < (l.foldl (upd chroma) st).1 → (l.foldl (upd chroma) st).2 ≠ "Unknown") := by
  intro l
  induction l with
  | nil => intro st hst; exact hst
  | cons h l ih =>
    intro st hst
    rw [List.foldl_cons]
    apply ih
    unfold upd
    split
    · intro _; exact chordLabel_ne_unknown h
    · exact hst

theorem matchChord_pos_ne_unknown (chroma : Fin 12 → α)
    (hpos : 0 < (matchChord chroma).1) : (matchChord chroma).2 ≠ "Unknown" := by
  rw [matchChord_eq_foldl_hyps] at hpos ⊢
  exact foldl_upd_pos_ne_unknown chroma hyps (0, "Unknown") (by simp) hpos

/-! ### Dot products against rotated templates -/

theorem dot_roll_three (c t : Fin 12 → ℚ) (r o₁ o₂ : Fin 12)
    (h₁ : o₁ ≠ 0) (h₂ : o₂ ≠ 0) (h₁₂ : o₁ ≠ o₂)
    (ht0 : t 0 = 1) (ht1 : t o₁ = 1) (ht2 : t o₂ = 1)
    (htz : ∀ v : Fin 12, v ≠ 0 → v ≠ o₁ → v ≠ o₂ → t v = 0) :
    dot c (roll_template t r) = c r + c (r + o₁) + c (r + o₂) := by
  have key : ∀ j : Fin 12, j ∉ ({r, r + o₁, r + o₂} : Finset (Fin 12)) →
      c j * roll_template t r j = 0 := by
    intro j hj
    simp only [Finset.mem_insert, Finset.mem_singleton, not_or] at hj
    obtain ⟨hj0, hj1, hj2⟩ := hj
    have hz : t (j - r) = 0 := by
      apply htz
      · exact sub_ne_zero.mpr hj0
      · intro hh; exact hj1 (by rw [← hh]; ring)
      · intro hh; exact hj2 (by rw [← hh]; ring)
    simp [roll_template, hz]
  have hmem0 : r ∉ ({r + o₁, r + o₂} : Finset (Fin 12)) := by
    simp only [Finset.mem_insert, Finset.mem_singleton]
    push_neg
    constructor
    · intro hh; exact h₁ (self_eq_add_right.mp hh)
    · intro hh; exact h₂ (self_eq_add_right.mp hh)
  have hmem1 : r + o₁ ∉ ({r + o₂} : Finset (Fin 12)) := by
    simp only [Finset.mem_singleton]
    intro hh; exact h₁₂ (add_left_cancel hh)
  have hsum : dot c (roll_template t r) =
      ∑ j ∈ ({r, r + o₁, r + o₂} : Finset (Fin 12)), c j * roll_template t r j :=
    (Finset.sum_subset (Finset.subset_univ _) (fun x _ hx => key x hx)).symm
  rw [hsum, Finset.sum_insert hmem0, Finset.sum_insert hmem1, Finset.sum_singleton]
  simp only [roll_template, sub_self, add_sub_cancel_left, ht0, ht1, ht2, mul_one]
  ring

theorem score_major (c : Fin 12 → ℚ) (r : Fin 12) :
    score c (r, true) = c r + c (r + 4) + c (r + 7) := by
  have : score c (r, true) = dot c (roll_template MAJOR_TEMPLATE r) := rfl
  rw [this]
  exact dot_roll_three c _ r 4 7 (by decide) (by decide) (by decide)
    (by decide) (by decide) (by decide) (by decide)

theorem score_minor (c : Fin 12 → ℚ) (r : Fin 12) :
    score c (r, false) = c r + c (r + 3) + c (r + 7) := by
  have : score c (r, false) = dot c (roll_template MINOR_TEMPLATE r) := rfl
  rw [this]
  exact dot_roll_three c _ r 3 7 (by decide) (by decide) (by decide)
    (by decide) (by decide) (by decide) (by decide)

theorem matchChord_first_max (c : Fin 12 → α) (h : Fin 12 × Bool)
    (l₁ l₂ : List (Fin 12 × Bool)) (hsplit : hyps = l₁ ++ h :: l₂)
    (hpos : 0 < score c h)
    (hbefore : ∀ h' ∈ l₁, score c h' < score c h)
    (hafter : ∀ h' ∈ l₂, score c h' ≤ score c h) :
    matchChord c = (score c h, chordLabel h) := by
  rw [matchChord_eq_foldl_hyps, hsplit]
  exact foldl_upd_first_max c h l₂ hafter l₁ (0, "Unknown") hpos hbefore

/-! ### Claim C1 (threshold boundary) -/

/-- Claim C1 (amended): the final comparison is a strict less-than against
the 0.4 threshold, so a best score exactly equal to 0.4 passes the test and
yields the winning chord label (not "Unknown"); only a best score strictly
below 0.4 yields "Unknown", and a best score strictly above 0.4 yields a
chord label. -/
theorem threshold_boundary (c : Fin 12 → ℚ) :
    ((matchChord c).1 < 2 / 5 → classify c = "Unknown") ∧
    ((matchChord c).1 = 2 / 5 → classify c ≠ "Unknown") ∧
    (2 / 5 < (matchChord c).1 → classify c ≠ "Unknown") := by
  refine ⟨fun hlt => ?_, fun heq => ?_, fun hgt => ?_⟩
  · unfold classify; rw [if_pos hlt]
  · unfold classify
    rw [if_neg (by rw [heq]; exact lt_irrefl _)]
    exact matchChord_pos_ne_unknown c (by rw [heq]; norm_num)
  · unfold classify
    rw [if_neg (not_lt.mpr hgt.le)]
    exact matchChord_pos_ne_unknown c (lt_trans (by norm_num) hgt)

theorem hyps_split : hyps = [] ++ ((0 : Fin 12), true) :: hypsTail := by decide

theorem matchChord_cEx1 : matchChord cEx1 = (2 / 5, "C major") := by
  have hs : score cEx1 ((0 : Fin 12), true) = 2 / 5 := by
    rw [score_major]; simp [cEx1]
  have h := matchChord_first_max cEx1 ((0 : Fin 12), true) [] hypsTail hyps_split
    (by rw [hs]; norm_num)
    (by intro h' hh'; simp at hh')
    (by intro h' hh'
        rw [hs]
        fin_cases hh' <;> simp [score_major, score_minor, cEx1] <;> norm_num)
  rw [h, hs]
  exact congrArg (Prod.mk (2 / 5 : ℚ)) (by decide)

/-- Claim C1 counterexample: on `cEx1` the best score over all 24
hypotheses is exactly 0.4, yet the pipeline reports "C major", not
"Unknown" — `best_score < 0.4` is false at equality. -/
theorem threshold_boundary_cex :
    (matchChord cEx1).1 = 2 / 5 ∧ classify cEx1 = "C major" := by
  refine ⟨by rw [matchChord_cEx1], ?_⟩
  unfold classify
  rw [matchChord_cEx1]
  exact if_neg (lt_irrefl _)

/-- Claim C1 witness. -/
theorem threshold_boundary_witness : classify cEx1 ≠ "Unknown" :=
  (threshold_boundary cEx1).2.1 (by rw [matchChord_cEx1])

/-! ### Claim C5 (strict-greater-than tie-breaking) -/

/-- Claim C5: the matcher keeps the single highest score over the 24
hypotheses using strict greater-than, so the winner is the first
hypothesis (in the order of `hyps`: roots ascending, major before minor)
whose score is not exceeded by any later hypothesis and strictly exceeds
every earlier one — ties keep the first-found hypothesis: lowest root
among tied roots, and major over minor at the same root. -/
theorem tie_break_first_found (c : Fin 12 → ℚ) (h : Fin 12 × Bool)
    (l₁ l₂ : List (Fin 12 × Bool)) (hsplit : hyps = l₁ ++ h :: l₂)
    (hpos : 0 < score c h)
    (hbefore : ∀ h' ∈ l₁, score c h' < score c h)
    (hafter : ∀ h' ∈ l₂, score c h' ≤ score c h) :
    matchChord c = (score c h, chordLabel h) :=
  matchChord_first_max c h l₁ l₂ hsplit hpos hbefore hafter

/-- Claim C5 witness: on `cT` the C-major and C-minor hypotheses tie at
score 3 and C major, evaluated first in the per-root loop, wins. -/
theorem tie_break_first_found_witness : matchChord cT = (3, "C major") := by
  have hs : score cT ((0 : Fin 12), true) = 3 := by
    rw [score_major]; simp [cT]; norm_num
  have h := tie_break_first_found cT ((0 : Fin 12), true) [] hypsTail hyps_split
    (by rw [hs]; norm_num)
    (by intro h' hh'; simp at hh')
    (by intro h' hh'
        rw [hs]
        fin_cases hh' <;> simp [score_major, score_minor, cT] <;> norm_num)
  rw [h, hs]
  exact congrArg (Prod.mk (3 : ℚ)) (by decide)

/-! ### Claim C7 (rotation and score decomposition) -/

/-- Claim C7: rotating a base template by `r` moves the value at offset
`i` to index `(i + r) mod 12`, and the dot-product score against the
rotated major template is `c[r] + c[(r+4) mod 12] + c[(r+7) mod 12]`
(offsets 3 and 7 for minor), so each score equals — and in particular is
bounded by — the sum of the three chroma entries the template selects. -/
theorem rotation_and_score_decomposition (c : Fin 12 → ℚ) (r i : Fin 12) :
    (∀ t : Fin 12 → ℚ, roll_template t r (i + r) = t i) ∧
    dot c (roll_template MAJOR_TEMPLATE r) = c r + c (r + 4) + c (r + 7) ∧
    dot c (roll_template MINOR_TEMPLATE r) = c r + c (r + 3) + c (r + 7) := by
  refine ⟨fun t => ?_, ?_, ?_⟩
  · simp [roll_template, add_sub_cancel_right]
  · exact dot_roll_three c _ r 4 7 (by decide) (by decide) (by decide)
      (by decide) (by decide) (by decide) (by decide)
  · exact dot_roll_three c _ r 3 7 (by decide) (by decide) (by decide)
      (by decide) (by decide) (by decide) (by decide)

/-! ### Claim C2 (empty input) and Claim C9 (determinism) -/

/-- Claim C2: for every sample rate, an empty sample buffer makes the
pipeline return "Unknown" deterministically, short-circuiting before
windowing, transform and template matching; this is not an error. -/
theorem empty_input_unknown (sr : ℕ) : find_chord sr [] = "Unknown" := by
  simp [find_chord]

/-- Claim C9: the pipeline is a pure function of (sample rate, samples):
two runs on identical inputs produce identical labels. -/
theorem find_chord_deterministic (sr₁ sr₂ : ℕ) (s₁ s₂ : List ℝ)
    (hsr : sr₁ = sr₂) (hs : s₁ = s₂) :
    find_chord sr₁ s₁ = find_chord sr₂ s₂ := by
  rw [hsr, hs]

/-- Claim C9 witness. -/
theorem find_chord_deterministic_witness :
    find_chord 44100 [1, 0, -1] = find_chord 44100 [1, 0, -1] :=
  find_chord_deterministic 44100 44100 [1, 0, -1] [1, 0, -1] rfl rfl

/-! ### Lemmas about accumulation and normalization -/

theorem aggStep_nonneg (sr n : ℕ) (acc : Fin 12 → ℝ) (kc : ℕ × ℂ)
    (hacc : ∀ i, 0 ≤ acc i) : ∀ i, 0 ≤ aggStep sr n acc kc i := by
  intro i
  unfold aggStep
  split
  · exact hacc i
  · split
    · rw [Function.update_apply]
      split
      · exact add_nonneg (hacc _) (Complex.abs.nonneg _)
      · exact hacc i
    · exact hacc i

theorem foldl_aggStep_nonneg (sr n : ℕ) :
    ∀ (l : List (ℕ × ℂ)) (acc : Fin 12 → ℝ),
      (∀ i, 0 ≤ acc i) → ∀ i, 0 ≤ l.foldl (aggStep sr n) acc i := by
  intro l
  induction l with
  | nil => intro acc hacc; exact hacc
  | cons kc l ih =>
    intro acc hacc
    rw [List.foldl_cons]
    exact ih _ (aggStep_nonneg sr n acc kc hacc)

theorem pitchEnergyRaw_nonneg (sr : ℕ) (spectrum : List ℂ) :
    ∀ i, 0 ≤ pitchEnergyRaw sr spectrum i :=
  foldl_aggStep_nonneg sr spectrum.length _ _ (fun _ => le_refl 0)

theorem normalize_of_all_zero (c : Fin 12 → ℝ) (hc : ∀ i, c i = 0) :
    ∀ i, normalize c i = 0 := by
  intro i
  have hmax : Finset.univ.sup' Finset.univ_nonempty c = 0 := by
    apply le_antisymm
    · exact Finset.sup'_le _ _ (fun j _ => le_of_eq (hc j))
    · exact le_trans (le_of_eq (hc i).symm) (Finset.le_sup' c (Finset.mem_univ i))
  unfold normalize
  rw [hmax, if_neg (lt_irrefl 0)]
  exact hc i

theorem normalize_max_eq_one (c : Fin 12 → ℝ) (hnn : ∀ i, 0 ≤ c i)
    (hne : ∃ i, c i ≠ 0) :
    Finset.univ.sup' Finset.univ_nonempty (normalize c) = 1 := by
  obtain ⟨i₀, hi₀⟩ := hne
  have hpos : 0 < Finset.univ.sup' Finset.univ_nonempty c :=
    lt_of_lt_of_le (lt_of_le_of_ne (hnn i₀) (Ne.symm hi₀))
      (Finset.le_sup' c (Finset.mem_univ i₀))
  have hdef : normalize c = fun i => c i / Finset.univ.sup' Finset.univ_nonempty c := by
    unfold normalize
    rw [if_pos hpos]
  rw [hdef]
  obtain ⟨i₁, _, hi₁⟩ :=
    Finset.exists_mem_eq_sup'
      (Finset.univ_nonempty : (Finset.univ : Finset (Fin 12)).Nonempty) c
  apply le_antisymm
  · apply Finset.sup'_le
    intro j _
    rw [div_le_one hpos]
    exact Finset.le_sup' c (Finset.mem_univ j)
  · have : (1 : ℝ) = c i₁ / Finset.univ.sup' Finset.univ_nonempty c := by
      rw [← hi₁, div_self (ne_of_gt hpos)]
    rw [this]
    exact Finset.le_sup'
      (fun j => c j / Finset.univ.sup' Finset.univ_nonempty c) (Finset.mem_univ i₁)

/-! ### Claim C6 (chroma vector invariants) -/

/-- Claim C6: the aggregated chroma vector has 12 non-negative entries;
after normalization its maximum is exactly 1 whenever any energy was
accumulated, and if none was, every entry is exactly zero (the division
only happens when the maximum is strictly positive). -/
theorem chroma_invariants (sr : ℕ) (spectrum : List ℂ) :
    (∀ i, 0 ≤ pitchEnergyRaw sr spectrum i) ∧
    ((∃ i, pitchEnergyRaw sr spectrum i ≠ 0) →
      Finset.univ.sup' Finset.univ_nonempty (normalize (pitchEnergyRaw sr spectrum)) = 1) ∧
    ((∀ i, pitchEnergyRaw sr spectrum i = 0) →
      ∀ i, normalize (pitchEnergyRaw sr spectrum) i = 0) := by
  refine ⟨pitchEnergyRaw_nonneg sr spectrum, fun hne => ?_, fun hz => ?_⟩
  · exact normalize_max_eq_one _ (pitchEnergyRaw_nonneg sr spectrum) hne
  · exact normalize_of_all_zero _ hz

/-- Claim C6 witness (empty spectrum: no energy accumulated). -/
theorem chroma_invariants_witness :
    0 ≤ pitchEnergyRaw 44100 [] 0 ∧ normalize (pitchEnergyRaw 44100 []) 0 = 0 :=
  ⟨(chroma_invariants 44100 []).1 0, (chroma_invariants 44100 []).2.2 (fun _ => rfl) 0⟩

/-! ### Lemmas about the all-zero chroma vector -/

theorem score_zero (h : Fin 12 × Bool) : score (fun _ => (0 : α)) h = 0 := by
  simp [score, dot]

theorem matchChord_zero : matchChord (fun _ => (0 : α)) = (0, "Unknown") := by
  rw [matchChord_eq_foldl_hyps]
  exact foldl_upd_of_le _ hyps _ (fun h _ => le_of_eq (score_zero h))

theorem classify_zero : classify (fun _ => (0 : α)) = "Unknown" := by
  unfold classify
  rw [matchChord_zero]
  exact if_pos (by norm_num)

theorem normalize_zero : normalize (fun _ => (0 : ℝ)) = fun _ => 0 := by
  funext i
  exact normalize_of_all_zero _ (fun _ => rfl) i

theorem foldl_aggStep_of_zero (sr n : ℕ) :
    ∀ (l : List (ℕ × ℂ)) (acc : Fin 12 → ℝ),
      (∀ kc ∈ l, (70 : ℝ) ≤ (kc.1 : ℝ) * sr / n →
        (kc.1 : ℝ) * sr / n ≤ 1500 → kc.2 = 0) →
      l.foldl (aggStep sr n) acc = acc := by
  intro l
  induction l with
  | nil => intro acc _; rfl
  | cons kc l ih =>
    intro acc hz
    rw [List.foldl_cons]
    have hstep : aggStep sr n acc kc = acc := by
      unfold aggStep
      split
      · rfl
      · next hband =>
        push_neg at hband
        have hv : kc.2 = 0 :=
          hz kc (List.mem_cons_self kc l) hband.1 hband.2
        split
        · rw [hv, map_zero, add_zero, Function.update_eq_self]
        · rfl
    rw [hstep]
    exact ih acc (fun kc' hkc' => hz kc' (List.mem_cons_of_mem kc hkc'))

/-! ### Claim C4 (band filtering) -/

/-- Claim C4: only bins `k < n/2` with bin frequency `k*sr/n` inside
[70, 1500] Hz contribute to the chroma vector; if every such in-band bin
carries zero spectral energy, the chroma vector is all-zero and the final
label is "Unknown". -/
theorem band_filtering (sr : ℕ) (spectrum : List ℂ)
    (hzero : ∀ kc ∈ spectrum.enum.take (spectrum.length / 2),
      (70 : ℝ) ≤ (kc.1 : ℝ) * sr / spectrum.length →
      (kc.1 : ℝ) * sr / spectrum.length ≤ 1500 → kc.2 = 0) :
    pitchEnergyRaw sr spectrum = (fun _ => 0) ∧
    chordFromSpectrum sr spectrum = "Unknown" := by
  have hraw : pitchEnergyRaw sr spectrum = (fun _ => 0) :=
    foldl_aggStep_of_zero sr spectrum.length _ _ hzero
  refine ⟨hraw, ?_⟩
  unfold chordFromSpectrum
  rw [hraw, normalize_zero, classify_zero]

/-- Claim C4 witness. -/
theorem band_filtering_witness :
    pitchEnergyRaw 44100 [] = (fun _ => 0) ∧
    chordFromSpectrum 44100 [] = "Unknown" :=
  band_filtering 44100 [] (fun kc hkc => absurd hkc (by simp))

/-! ### The frequency-to-pitch-class mapping -/

theorem freq_to_pitch_lt_twelve_aux (f : ℝ) : freq_to_pitch f < 12 := by
  simp only [freq_to_pitch]
  have h1 : (round (69 + 12 * Real.logb 2 (f / 440))).tmod 12 < 12 :=
    Int.tmod_lt_of_pos _ (by norm_num)
  split <;> omega

theorem freq_to_pitch_440 : freq_to_pitch 440 = 9 := by
  have h1 : (440 : ℝ) / 440 = 1 := div_self (by norm_num)
  have h2 : (69 : ℝ) + 12 * Real.logb 2 ((440 : ℝ) / 440) = ((69 : ℤ) : ℝ) := by
    rw [h1, Real.logb_one]
    norm_num
  simp only [freq_to_pitch, h2, round_intCast]
  decide

theorem logb_boundC_lower : (-19 : ℝ) / 24 ≤ Real.logb 2 (26163 / 44000) := by
  rw [Real.le_logb_iff_rpow_le (by norm_num) (by norm_num)]
  have hx : (0 : ℝ) ≤ (2 : ℝ) ^ ((-19 : ℝ) / 24) :=
    (Real.rpow_pos_of_pos (by norm_num) _).le
  rw [← pow_le_pow_iff_left₀ hx (by norm_num : (0 : ℝ) ≤ 26163 / 44000)
    (by norm_num : 24 ≠ 0)]
  have h24 : ((2 : ℝ) ^ ((-19 : ℝ) / 24)) ^ (24 : ℕ) = (2 : ℝ) ^ ((-19 : ℝ)) := by
    rw [← Real.rpow_natCast ((2 : ℝ) ^ ((-19 : ℝ) / 24)) 24,
      ← Real.rpow_mul (by norm_num)]
    norm_num
  rw [h24, show ((-19 : ℝ)) = -((19 : ℕ) : ℝ) by norm_num,
    Real.rpow_neg (by norm_num), Real.rpow_natCast]
  norm_num

theorem logb_boundC_upper : Real.logb 2 (26163 / 44000) < (-17 : ℝ) / 24 := by
  rw [Real.logb_lt_iff_lt_rpow (by norm_num) (by norm_num)]
  have hx : (0 : ℝ) ≤ (2 : ℝ) ^ ((-17 : ℝ) / 24) :=
    (Real.rpow_pos_of_pos (by norm_num) _).le
  rw [← pow_lt_pow_iff_left₀ (by norm_num : (0 : ℝ) ≤ 26163 / 44000) hx
    (by norm_num : 24 ≠ 0)]
  have h24 : ((2 : ℝ) ^ ((-17 : ℝ) / 24)) ^ (24 : ℕ) = (2 : ℝ) ^ ((-17 : ℝ)) := by
    rw [← Real.rpow_natCast ((2 : ℝ) ^ ((-17 : ℝ) / 24)) 24,
      ← Real.rpow_mul (by norm_num)]
    norm_num
  rw [h24, show ((-17 : ℝ)) = -((17 : ℕ) : ℝ) by norm_num,
    Real.rpow_neg (by norm_num), Real.rpow_natCast]
  norm_num

theorem freq_to_pitch_26163 : freq_to_pitch (26163 / 100) = 0 := by
  have harg : ((26163 : ℝ) / 100) / 440 = 26163 / 44000 := by norm_num
  have hround : round ((69 : ℝ) + 12 * Real.logb 2 (26163 / 44000)) = 60 := by
    rw [round_eq, Int.floor_eq_iff]
    have hlo := logb_boundC_lower
    have hhi := logb_boundC_upper
    constructor
    · push_cast
      linarith
    · push_cast
      linarith
  simp only [freq_to_pitch, harg, hround]
  decide

/-! ### Claim C3 (pitch mapping exactness) -/

/-- Claim C3: the mapping computes `midi = 69 + 12·log2(freq/440)`, rounds
to the nearest semitone and reduces mod 12 with a correction making a
negative remainder non-negative; `freq_to_pitch 440 = 9` ("A"),
`freq_to_pitch 261.63 = 0` ("C"), and the result is never out of range. -/
theorem pitch_mapping_exact :
    freq_to_pitch 440 = 9 ∧ freq_to_pitch (26163 / 100) = 0 ∧
    ∀ f : ℝ, freq_to_pitch f < 12 :=
  ⟨freq_to_pitch_440, freq_to_pitch_26163, freq_to_pitch_lt_twelve_aux⟩

/-! ### Claim C10 (indexing safety) -/

/-- Claim C10: for every strictly positive frequency — in particular every
bin frequency retained by the [70, 1500] Hz filter — `freq_to_pitch`
returns a pitch class in 0..11, so `pitch_energy[pc] += mag` always
indexes within the 12-element array and the panic branch is unreachable. -/
theorem freq_to_pitch_indexing_safe (f : ℝ) (_hf : 0 < f) :
    freq_to_pitch f < 12 :=
  freq_to_pitch_lt_twelve_aux f

/-- Claim C10 witness. -/
theorem freq_to_pitch_indexing_safe_witness :
    (0 : ℝ) < 440 ∧ freq_to_pitch 440 < 12 :=
  ⟨by norm_num, freq_to_pitch_indexing_safe 440 (by norm_num)⟩

/-! ### Stability of the diagnostic top-3 sort

The ascending stable sort of `0..11` by energy is sorted by the strict
lexicographic key (energy ascending, then index ascending): among equal
energies the original (ascending-index) order survives.  Reversing it
therefore puts ties in descending index order. -/

theorem orderedInsert_key_pairwise (c : Fin 12 → ℚ) (a : Fin 12) :
    ∀ S : List (Fin 12),
      S.Pairwise (fun x y => c x < c y ∨ (c x = c y ∧ x < y)) →
      (∀ x ∈ S, a < x) →
      (List.orderedInsert (fun x y => c x ≤ c y) a S).Pairwise
        (fun x y => c x < c y ∨ (c x = c y ∧ x < y)) := by
  intro S
  induction S with
  | nil => intro _ _; simp
  | cons b S' ih =>
    intro hpw hidx
    simp only [List.orderedInsert]
    split
    · next hab =>
      refine List.Pairwise.cons (fun y hy => ?_) hpw
      rcases List.mem_cons.mp hy with rfl | hy'
      · rcases lt_or_eq_of_le hab with hlt | heq
        · exact Or.inl hlt
        · exact Or.inr ⟨heq, hidx y (List.mem_cons_self y S')⟩
      · rcases List.rel_of_pairwise_cons hpw hy' with hlt | ⟨heq, _⟩
        · exact Or.inl (lt_of_le_of_lt hab hlt)
        · rcases lt_or_eq_of_le (le_of_le_of_eq hab heq) with hlt | heq'
          · exact Or.inl hlt
          · exact Or.inr ⟨heq', hidx y (List.mem_cons_of_mem b hy')⟩
    · next hab =>
      have hba : c b < c a := not_le.mp hab
      refine List.Pairwise.cons (fun y hy => ?_)
        (ih (List.Pairwise.of_cons hpw)
          (fun x hx => hidx x (List.mem_cons_of_mem b hx)))
      rcases (List.mem_orderedInsert (fun x y => c x ≤ c y)).mp hy with rfl | hy'
      · exact Or.inl hba
      · exact List.rel_of_pairwise_cons hpw hy'

theorem insertionSort_key_pairwise (c : Fin 12 → ℚ) :
    ∀ l : List (Fin 12), l.Pairwise (· < ·) →
      (l.insertionSort (fun a b => c a ≤ c b)).Pairwise
        (fun x y => c x < c y ∨ (c x = c y ∧ x < y)) := by
  intro l
  induction l with
  | nil => intro _; simp [List.insertionSort]
  | cons a l ih =>
    intro hpw
    rw [List.insertionSort]
    exact orderedInsert_key_pairwise c a _
      (ih (List.Pairwise.of_cons hpw))
      (fun x hx =>
        List.rel_of_pairwise_cons hpw ((List.mem_insertionSort _).mp hx))

theorem top_notes_reverse_pairwise (c : Fin 12 → ℚ) :
    (((List.finRange 12).insertionSort (fun a b => c a ≤ c b)).reverse).Pairwise
      (fun x y => c y < c x ∨ (c y = c x ∧ y < x)) := by
  rw [List.pairwise_reverse]
  exact insertionSort_key_pairwise c _ (List.pairwise_lt_finRange 12)

/-! ### Claim C8 (top-3 diagnostic) -/

/-- Claim C8 (amended): the diagnostic output lists the top-3 strongest
pitch classes in descending energy order, but ties between equal-energy
pitch classes appear in *descending* index order — the code reverses an
ascending stable sort, which flips the original order of tied classes. -/
theorem top_notes_spec (c : Fin 12 → ℚ) :
    (top_notes c).length = 3 ∧
    (top_notes c).Pairwise (fun a b => c b < c a ∨ (c b = c a ∧ b < a)) ∧
    (∀ b : Fin 12, b ∉ top_notes c → ∀ a ∈ top_notes c,
      c b < c a ∨ (c b = c a ∧ b < a)) := by
  have hR := top_notes_reverse_pairwise c
  have hlen :
      (((List.finRange 12).insertionSort (fun a b => c a ≤ c b)).reverse).length = 12 := by
    rw [List.length_reverse, List.length_insertionSort, List.length_finRange]
  refine ⟨?_, ?_, ?_⟩
  · show ((((List.finRange 12).insertionSort
        (fun a b => c a ≤ c b)).reverse).take 3).length = 3
    rw [List.length_take, hlen]
    rfl
  · exact List.Pairwise.sublist (List.take_sublist 3 _) hR
  · intro b hb a ha
    set R := ((List.finRange 12).insertionSort (fun a b => c a ≤ c b)).reverse with hRdef
    have hbR : b ∈ R := by
      rw [hRdef, List.mem_reverse, List.mem_insertionSort]
      exact List.mem_finRange b
    have hsplit : R.take 3 ++ R.drop 3 = R := List.take_append_drop 3 R
    have hbdrop : b ∈ R.drop 3 := by
      rcases List.mem_append.mp (hsplit ▸ hbR) with h | h
      · exact absurd h hb
      · exact h
    have hpw := hsplit ▸ hR
    exact (List.pairwise_append.mp hpw).2.2 a ha b hbdrop

/-- Claim C8 counterexample: on the uniform (all-ties) normalized chroma
vector the diagnostic list is [11, 10, 9] — tied classes in descending
index order — not [0, 1, 2] as the claimed original-index order would
give. -/
theorem top_notes_cex :
    top_notes (fun _ => (1 : ℚ)) = [11, 10, 9] ∧
    ([11, 10, 9] : List (Fin 12)) ≠ [0, 1, 2] := by
  constructor
  · decide
  · decide

/-- Claim C8 witness. -/
theorem top_notes_spec_witness :
    c8w 1 < c8w 11 ∨ (c8w 1 = c8w 11 ∧ (1 : Fin 12) < 11) :=
  (top_notes_spec c8w).2.2 1 (by decide) 11 (by decide)

end Chord
